import Mathlib

/-!
Verification of the anagram dictionary in `Dictionary.cpp`.

The C++ code is a chained hash table mapping the canonical form of a word
(lowercase letters only, sorted ascending) to the list of inserted words
sharing that canonical form.  We embed the implementation shallowly:

* C++ strings are lists of character codes (`Str := List Nat`); all inputs in
  the claims are ASCII, where a `char` is exactly its code point.
* `isalpha` / `tolower` are the C library functions restricted to the "C"
  locale (ASCII letters), which is how the source uses them.
* `std::sort` on a string produces the unique ascending reordering of its
  characters, embedded here as insertion sort (`sortStr`), which computes the
  same sorted permutation.
* `std::hash<std::string>` is an arbitrary deterministic function; every
  definition is parameterised by `h : Str → Nat`, and the bucket index is
  `h key % m_B`, mirroring `hash` in the source.
* The load-factor test `m_N / (float)m_B > 0.7f` is embedded as the exact
  rational comparison `10 * m_N > 7 * m_B`; the two tests agree everywhere
  except at astronomically large bucket counts (above about five million),
  far beyond any state the claims mention.
* The bucket array `list<string>** m_words` becomes a list of optional
  chains: `none` is a null chain pointer, `some c` an allocated chain.
-/

/-- A C++ string as its list of character codes. -/
abbrev Str := List Nat

/-- `isalpha` from `<cctype>` in the "C" locale: ASCII letters only. -/
def isalpha (c : Nat) : Bool :=
  (65 ≤ c && c ≤ 90) || (97 ≤ c && c ≤ 122)

/-- `tolower` from `<cctype>` in the "C" locale. -/
def tolower (c : Nat) : Nat :=
  if 65 ≤ c && c ≤ 90 then c + 32 else c

/-- `removeNonLetters` from `Dictionary.cpp`: keep only alphabetic
characters, lowercased, in their original relative order. -/
def removeNonLetters (s : Str) : Str :=
  (s.filter isalpha).map tolower

/-- `std::sort(word.begin(), word.end())`: the ascending reordering of the
characters.  Insertion sort computes the same (unique) sorted permutation. -/
def sortStr (s : Str) : Str :=
  s.insertionSort (· ≤ ·)

/-- The canonical key of a word: lowercase letters only, sorted.  This is the
composition the source performs before hashing on both paths. -/
def canonicalize (s : Str) : Str :=
  sortStr (removeNonLetters s)

/-- Character codes of a Lean string literal, for concrete test inputs. -/
def strToCodes (s : String) : Str :=
  s.data.map Char.toNat

/-- Read bucket `i` of the bucket array (`m_words[i]`); out-of-range reads
never happen in the source since indices are reduced `mod m_B`. -/
def bucketGet (arr : List (Option (List Str))) (i : Nat) : Option (List Str) :=
  arr.getD i none

/-- The chain stored in bucket `i`, where a null chain pointer reads as the
empty chain. -/
def chainAt (arr : List (Option (List Str))) (i : Nat) : List Str :=
  (bucketGet arr i).getD []

/-- `if (!arr[i]) arr[i] = new list; arr[i]->push_back(w);` -/
def bucketPush (arr : List (Option (List Str))) (i : Nat) (w : Str) :
    List (Option (List Str)) :=
  arr.set i (some (chainAt arr i ++ [w]))

/-- All stored words in bucket-index order, then chain order — the iteration
order of the rehash loop in `tryRehash`. -/
def allWords : List (Option (List Str)) → List Str
  | [] => []
  | b :: rest => b.getD [] ++ allWords rest

/-- The state of `DictionaryImpl`: maximum bucket count, current bucket
count, item count, and the bucket array. -/
structure DictionaryImpl where
  m_maxB : Nat
  m_B : Nat
  m_N : Nat
  m_words : List (Option (List Str))
  deriving Repr, DecidableEq

/-- The constructor `DictionaryImpl(int max_buckets)`:
`m_B = m_maxB > 10 ? 10 : m_maxB`, all bucket pointers null, `m_N = 0`. -/
def mkDict (maxBuckets : Nat) : DictionaryImpl :=
  { m_maxB := maxBuckets
    m_B := if maxBuckets > 10 then 10 else maxBuckets
    m_N := 0
    m_words := List.replicate (if maxBuckets > 10 then 10 else maxBuckets) none }

/-- `DictionaryImpl::hash`: `std::hash<string>()(key) % m_B`, with the
unspecified library hash abstracted as the parameter `h`. -/
def DictionaryImpl.hash (h : Str → Nat) (d : DictionaryImpl) (key : Str) : Nat :=
  h key % d.m_B

/-- `DictionaryImpl::tryRehash`: if the load factor exceeds 0.7 and growth is
possible, double `m_B` (capped at `m_maxB`) and move every word into the
bucket its sorted form hashes to under the new bucket count, iterating old
buckets in index order and chains in order. -/
def DictionaryImpl.tryRehash (h : Str → Nat) (d : DictionaryImpl) : DictionaryImpl :=
  if d.m_B < d.m_maxB ∧ 10 * d.m_N > 7 * d.m_B then
    let newB := if 2 * d.m_B < d.m_maxB then 2 * d.m_B else d.m_maxB
    let dGrown : DictionaryImpl := { d with m_B := newB }
    let newArr := (allWords d.m_words).foldl
      (fun arr w => bucketPush arr (DictionaryImpl.hash h dGrown (sortStr w)) w)
      (List.replicate newB (none : Option (List Str)))
    { dGrown with m_words := newArr }
  else d

/-- `DictionaryImpl::insert`: bump `m_N`, try to rehash, then strip the word
to its lowercase letters; if anything remains, append that stripped word
(the source pushes `word` after `removeNonLetters` mutated it in place) to
the bucket its sorted form hashes to. -/
def DictionaryImpl.insert (h : Str → Nat) (d : DictionaryImpl) (word : Str) :
    DictionaryImpl :=
  let d1 := DictionaryImpl.tryRehash h { d with m_N := d.m_N + 1 }
  let w := removeNonLetters word
  if w = [] then d1
  else
    let temp := sortStr w
    let bucket := DictionaryImpl.hash h d1 temp
    { d1 with m_words := bucketPush d1.m_words bucket w }

/-- `DictionaryImpl::lookup`: a null callback returns at once; otherwise the
query is stripped and sorted, the one candidate bucket scanned, and the
callback folded (in chain order) over exactly the words whose sorted form
equals the sorted query.  The callback is modelled as a state transformer
`σ → Str → σ` so the sequence of invocations is observable; the method is
`const`, so it returns the table alongside the callback state. -/
def DictionaryImpl.lookup {σ : Type} (h : Str → Nat) (d : DictionaryImpl)
    (letters : Str) (callback : Option (σ → Str → σ)) (s : σ) :
    DictionaryImpl × σ :=
  match callback with
  | none => (d, s)
  | some f =>
    let l := removeNonLetters letters
    if l = [] then (d, s)
    else
      let key := sortStr l
      match bucketGet d.m_words (DictionaryImpl.hash h d key) with
      | none => (d, s)
      | some chain => (d, (chain.filter (fun w => sortStr w == key)).foldl f s)

/-- The list of words `lookup` passes to the callback, in invocation order. -/
def DictionaryImpl.lookupVisits (h : Str → Nat) (d : DictionaryImpl)
    (letters : Str) : List Str :=
  (DictionaryImpl.lookup h d letters (some (fun acc w => acc ++ [w])) []).2

/-- Table states reachable from construction by a sequence of inserts
(`lookup` is `const` and cannot change the state). -/
inductive Reachable (h : Str → Nat) (maxBuckets : Nat) : DictionaryImpl → Prop
  | init : Reachable h maxBuckets (mkDict maxBuckets)
  | step (d : DictionaryImpl) (w : Str) :
      Reachable h maxBuckets d → Reachable h maxBuckets (DictionaryImpl.insert h d w)

/-- The structural invariant of the table: at least one bucket, no more than
`m_maxB` buckets, the array has length `m_B`, every stored word sits in the
bucket its sorted form hashes to at the current bucket count, and every
stored word is a nonempty string of lowercase letters (it was pushed after
`removeNonLetters`). -/
structure TableInv (h : Str → Nat) (d : DictionaryImpl) : Prop where
  bpos : 1 ≤ d.m_B
  bmax : d.m_B ≤ d.m_maxB
  len : d.m_words.length = d.m_B
  placed : ∀ i w, w ∈ chainAt d.m_words i → h (sortStr w) % d.m_B = i
  stored : ∀ i w, w ∈ chainAt d.m_words i → removeNonLetters w = w ∧ w ≠ []

/-- A concrete reachable state: seven words inserted into a table built with
maxBuckets 100 under the constant-zero hash.  It has 10 buckets and item
count 7, so the next insert raises the load factor to 0.8 and triggers a
growth event to 20 buckets. -/
def dictSeven : DictionaryImpl :=
  DictionaryImpl.insert (fun _ => 0) (DictionaryImpl.insert (fun _ => 0)
    (DictionaryImpl.insert (fun _ => 0) (DictionaryImpl.insert (fun _ => 0)
    (DictionaryImpl.insert (fun _ => 0) (DictionaryImpl.insert (fun _ => 0)
    (DictionaryImpl.insert (fun _ => 0) (mkDict 100) (strToCodes "dog"))
    (strToCodes "cat")) (strToCodes "bird")) (strToCodes "fish"))
    (strToCodes "lion")) (strToCodes "bear")) (strToCodes "wolf")

theorem tolower_fixes (c : Nat) (hc : isalpha c = true) :
    isalpha (tolower c) = true ∧ tolower (tolower c) = tolower c := by
  simp only [isalpha, tolower, Bool.or_eq_true, Bool.and_eq_true,
    decide_eq_true_eq] at *
  by_cases h1 : 65 ≤ c ∧ c ≤ 90 <;> simp [h1] <;> omega

theorem mem_removeNonLetters {c : Nat} {s : Str}
    (hc : c ∈ removeNonLetters s) : isalpha c = true ∧ tolower c = c := by
  simp only [removeNonLetters, List.mem_map, List.mem_filter] at hc
  obtain ⟨a, ⟨_, ha⟩, rfl⟩ := hc
  have := tolower_fixes a ha
  exact ⟨this.1, this.2⟩

theorem removeNonLetters_idem (s : Str) :
    removeNonLetters (removeNonLetters s) = removeNonLetters s := by
  have hfix : ∀ c ∈ removeNonLetters s, isalpha c = true ∧ tolower c = c :=
    fun c hc => mem_removeNonLetters hc
  show ((removeNonLetters s).filter isalpha).map tolower = removeNonLetters s
  rw [List.filter_eq_self.mpr (fun c hc => (hfix c hc).1)]
  calc (removeNonLetters s).map tolower
      = (removeNonLetters s).map id := by
        apply List.map_congr_left
        intro c hc
        exact (hfix c hc).2
    _ = removeNonLetters s := List.map_id _

theorem sortStr_perm (s : Str) : (sortStr s).Perm s :=
  List.perm_insertionSort _ s

theorem sortStr_eq_nil_iff {s : Str} : sortStr s = [] ↔ s = [] := by
  constructor
  · intro hs
    have := sortStr_perm s
    rw [hs] at this
    exact (List.Perm.nil_eq this).symm
  · intro hs
    subst hs
    rfl

theorem canonicalize_eq_nil_iff {s : Str} :
    canonicalize s = [] ↔ removeNonLetters s = [] := by
  unfold canonicalize
  exact sortStr_eq_nil_iff

theorem bucketGet_nil (i : Nat) : bucketGet [] i = none := by
  simp [bucketGet]

theorem bucketGet_cons_zero (b : Option (List Str)) (rest : List (Option (List Str))) :
    bucketGet (b :: rest) 0 = b := by
  simp [bucketGet]

theorem bucketGet_cons_succ (b : Option (List Str)) (rest : List (Option (List Str)))
    (i : Nat) : bucketGet (b :: rest) (i + 1) = bucketGet rest i := by
  simp [bucketGet]

theorem chainAt_nil (i : Nat) : chainAt [] i = [] := by
  simp [chainAt, bucketGet_nil]

theorem chainAt_cons_zero (b : Option (List Str)) (rest : List (Option (List Str))) :
    chainAt (b :: rest) 0 = b.getD [] := by
  simp [chainAt, bucketGet_cons_zero]

theorem chainAt_cons_succ (b : Option (List Str)) (rest : List (Option (List Str)))
    (i : Nat) : chainAt (b :: rest) (i + 1) = chainAt rest i := by
  simp [chainAt, bucketGet_cons_succ]

theorem chainAt_replicate_none (n i : Nat) :
    chainAt (List.replicate n (none : Option (List Str))) i = [] := by
  induction n generalizing i with
  | zero => simp [chainAt_nil]
  | succ n ih =>
    cases i with
    | zero => simp [List.replicate_succ, chainAt_cons_zero]
    | succ i => simp [List.replicate_succ, chainAt_cons_succ, ih]

theorem length_bucketPush (arr : List (Option (List Str))) (i : Nat) (w : Str) :
    (bucketPush arr i w).length = arr.length := by
  simp [bucketPush]

theorem bucketPush_cons_succ (b : Option (List Str)) (rest : List (Option (List Str)))
    (i : Nat) (w : Str) :
    bucketPush (b :: rest) (i + 1) w = b :: bucketPush rest i w := by
  simp [bucketPush, chainAt_cons_succ, List.set]

theorem chainAt_bucketPush_self (arr : List (Option (List Str))) (i : Nat) (w : Str)
    (hlt : i < arr.length) :
    chainAt (bucketPush arr i w) i = chainAt arr i ++ [w] := by
  induction arr generalizing i with
  | nil => simp at hlt
  | cons b rest ih =>
    cases i with
    | zero =>
      simp [bucketPush, chainAt_cons_zero, List.set]
    | succ i =>
      rw [bucketPush_cons_succ, chainAt_cons_succ, chainAt_cons_succ]
      exact ih i (by simpa using hlt)

theorem chainAt_bucketPush_ne (arr : List (Option (List Str))) (i : Nat) (w : Str)
    (j : Nat) (hne : j ≠ i) :
    chainAt (bucketPush arr i w) j = chainAt arr j := by
  induction arr generalizing i j with
  | nil => simp [bucketPush, chainAt_nil]
  | cons b rest ih =>
    cases i with
    | zero =>
      cases j with
      | zero => exact absurd rfl hne
      | succ j => simp [bucketPush, List.set, chainAt_cons_succ]
    | succ i =>
      rw [bucketPush_cons_succ]
      cases j with
      | zero => simp [chainAt_cons_zero]
      | succ j =>
        rw [chainAt_cons_succ, chainAt_cons_succ]
        exact ih i j (fun hj => hne (by rw [hj]))

theorem mem_allWords {w : Str} {arr : List (Option (List Str))} :
    w ∈ allWords arr ↔ ∃ i, w ∈ chainAt arr i := by
  induction arr with
  | nil =>
    simp [allWords, chainAt_nil]
  | cons b rest ih =>
    simp only [allWords, List.mem_append, ih]
    constructor
    · rintro (hb | ⟨i, hi⟩)
      · exact ⟨0, by simpa [chainAt_cons_zero] using hb⟩
      · exact ⟨i + 1, by simpa [chainAt_cons_succ] using hi⟩
    · rintro ⟨i, hi⟩
      cases i with
      | zero => exact Or.inl (by simpa [chainAt_cons_zero] using hi)
      | succ i => exact Or.inr ⟨i, by simpa [chainAt_cons_succ] using hi⟩

theorem allWords_bucketPush_perm (arr : List (Option (List Str))) (i : Nat) (w : Str)
    (hlt : i < arr.length) :
    (allWords (bucketPush arr i w)).Perm (w :: allWords arr) := by
  induction arr generalizing i with
  | nil => simp at hlt
  | cons b rest ih =>
    cases i with
    | zero =>
      show (allWords ((some (chainAt (b :: rest) 0 ++ [w])) :: rest)).Perm _
      simp only [allWords, Option.getD_some, chainAt_cons_zero, List.append_assoc,
        List.singleton_append]
      exact List.perm_middle
    | succ i =>
      rw [bucketPush_cons_succ]
      simp only [allWords]
      exact (List.Perm.append_left _ (ih i (by simpa using hlt))).trans
        List.perm_middle

theorem allWords_replicate_none (n : Nat) :
    allWords (List.replicate n (none : Option (List Str))) = [] := by
  induction n with
  | zero => rfl
  | succ n ih => simp [List.replicate_succ, allWords, ih]

theorem length_pushAll (f : Str → Nat) (ws : List Str)
    (arr : List (Option (List Str))) :
    (ws.foldl (fun a w => bucketPush a (f w) w) arr).length = arr.length := by
  induction ws generalizing arr with
  | nil => rfl
  | cons w ws ih => simp [List.foldl_cons, ih, length_bucketPush]

theorem chainAt_pushAll (f : Str → Nat) (ws : List Str)
    (arr : List (Option (List Str))) (j : Nat)
    (hf : ∀ w ∈ ws, f w < arr.length) :
    chainAt (ws.foldl (fun a w => bucketPush a (f w) w) arr) j
      = chainAt arr j ++ ws.filter (fun w => f w == j) := by
  induction ws generalizing arr with
  | nil => simp
  | cons w ws ih =>
    rw [List.foldl_cons]
    rw [ih (bucketPush arr (f w) w)
      (fun v hv => by rw [length_bucketPush]; exact hf v (List.mem_cons_of_mem _ hv))]
    by_cases hj : f w = j
    · rw [List.filter_cons_of_pos (by simpa using hj)]
      rw [← hj, chainAt_bucketPush_self arr (f w) w (hf w (List.mem_cons_self _ _))]
      simp
    · rw [List.filter_cons_of_neg (by simpa using hj)]
      rw [chainAt_bucketPush_ne arr (f w) w j (fun hh => hj hh.symm)]

theorem allWords_pushAll_perm (f : Str → Nat) (ws : List Str)
    (arr : List (Option (List Str)))
    (hf : ∀ w ∈ ws, f w < arr.length) :
    (allWords (ws.foldl (fun a w => bucketPush a (f w) w) arr)).Perm
      (ws ++ allWords arr) := by
  induction ws generalizing arr with
  | nil => simp
  | cons w ws ih =>
    rw [List.foldl_cons]
    have h1 := ih (bucketPush arr (f w) w)
      (fun v hv => by rw [length_bucketPush]; exact hf v (List.mem_cons_of_mem _ hv))
    have h2 : (ws ++ allWords (bucketPush arr (f w) w)).Perm
        (ws ++ (w :: allWords arr)) :=
      List.Perm.append_left _ (allWords_bucketPush_perm arr (f w) w
        (hf w (List.mem_cons_self _ _)))
    rw [List.cons_append]
    exact h1.trans (h2.trans List.perm_middle)

theorem filter_allWords_localized (p : Str → Bool) (arr : List (Option (List Str)))
    (t : Nat) (hp : ∀ i w, w ∈ chainAt arr i → p w = true → i = t) :
    (allWords arr).filter p = (chainAt arr t).filter p := by
  induction arr generalizing t with
  | nil => simp [allWords, chainAt_nil]
  | cons b rest ih =>
    rw [allWords, List.filter_append]
    cases t with
    | zero =>
      have hrest : (allWords rest).filter p = [] := by
        rw [List.filter_eq_nil_iff]
        intro w hw hpw
        obtain ⟨i, hi⟩ := mem_allWords.mp hw
        have := hp (i + 1) w (by rwa [chainAt_cons_succ]) hpw
        omega
      rw [hrest, chainAt_cons_zero, List.append_nil]
    | succ t =>
      have hb : (b.getD []).filter p = [] := by
        rw [List.filter_eq_nil_iff]
        intro w hw hpw
        have := hp 0 w (by rwa [chainAt_cons_zero]) hpw
        omega
      rw [hb, chainAt_cons_succ, List.nil_append]
      exact ih t (fun i w hw hpw => by
        have := hp (i + 1) w (by rwa [chainAt_cons_succ]) hpw
        omega)

theorem foldl_snoc (l acc : List Str) :
    l.foldl (fun a w => a ++ [w]) acc = acc ++ l := by
  induction l generalizing acc with
  | nil => simp
  | cons w l ih => simp [List.foldl_cons, ih]

theorem lookupVisits_eq_chain_filter (h : Str → Nat) (d : DictionaryImpl) (q : Str)
    (hq : ¬removeNonLetters q = []) :
    DictionaryImpl.lookupVisits h d q
      = (chainAt d.m_words (h (canonicalize q) % d.m_B)).filter
          (fun w => sortStr w == canonicalize q) := by
  have hkey : DictionaryImpl.hash h d (sortStr (removeNonLetters q))
      = h (canonicalize q) % d.m_B := rfl
  simp only [DictionaryImpl.lookupVisits, DictionaryImpl.lookup, if_neg hq, hkey,
    chainAt]
  cases hbg : bucketGet d.m_words (h (canonicalize q) % d.m_B) with
  | none => simp [hbg]
  | some chain => simp [hbg, foldl_snoc, canonicalize]

theorem lookupVisits_eq_filter (h : Str → Nat) (d : DictionaryImpl) (q : Str)
    (inv : TableInv h d) :
    DictionaryImpl.lookupVisits h d q
      = if removeNonLetters q = [] then []
        else (allWords d.m_words).filter (fun w => sortStr w == canonicalize q) := by
  by_cases hq : removeNonLetters q = []
  · simp [DictionaryImpl.lookupVisits, DictionaryImpl.lookup, hq]
  · rw [if_neg hq, lookupVisits_eq_chain_filter h d q hq]
    symm
    apply filter_allWords_localized
    intro i w hw hpw
    have hkey : sortStr w = canonicalize q := by simpa using hpw
    rw [← inv.placed i w hw, hkey]

theorem tryRehash_maxB (h : Str → Nat) (d : DictionaryImpl) :
    (DictionaryImpl.tryRehash h d).m_maxB = d.m_maxB := by
  unfold DictionaryImpl.tryRehash
  split <;> rfl

theorem tryRehash_N (h : Str → Nat) (d : DictionaryImpl) :
    (DictionaryImpl.tryRehash h d).m_N = d.m_N := by
  unfold DictionaryImpl.tryRehash
  split <;> rfl

theorem tryRehash_B (h : Str → Nat) (d : DictionaryImpl) :
    (DictionaryImpl.tryRehash h d).m_B
      = if d.m_B < d.m_maxB ∧ 10 * d.m_N > 7 * d.m_B then
          (if 2 * d.m_B < d.m_maxB then 2 * d.m_B else d.m_maxB)
        else d.m_B := by
  unfold DictionaryImpl.tryRehash
  split <;> rfl

theorem tryRehash_B_le (h : Str → Nat) (d : DictionaryImpl) :
    d.m_B ≤ (DictionaryImpl.tryRehash h d).m_B := by
  rw [tryRehash_B]
  split
  · next hg => split <;> omega
  · exact Nat.le_refl _

theorem tryRehash_grow (h : Str → Nat) (d : DictionaryImpl)
    (hg : d.m_B < d.m_maxB ∧ 10 * d.m_N > 7 * d.m_B) :
    (DictionaryImpl.tryRehash h d).m_B
        = (if 2 * d.m_B < d.m_maxB then 2 * d.m_B else d.m_maxB)
      ∧ (DictionaryImpl.tryRehash h d).m_words
        = (allWords d.m_words).foldl
            (fun arr w => bucketPush arr
              (h (sortStr w) % (if 2 * d.m_B < d.m_maxB then 2 * d.m_B else d.m_maxB)) w)
            (List.replicate (if 2 * d.m_B < d.m_maxB then 2 * d.m_B else d.m_maxB)
              none) := by
  unfold DictionaryImpl.tryRehash
  rw [if_pos hg]
  exact ⟨rfl, rfl⟩

theorem chainAt_tryRehash (h : Str → Nat) (d : DictionaryImpl) (inv : TableInv h d)
    (hg : d.m_B < d.m_maxB ∧ 10 * d.m_N > 7 * d.m_B) (j : Nat) :
    chainAt (DictionaryImpl.tryRehash h d).m_words j
      = (allWords d.m_words).filter
          (fun w => (h (sortStr w) % (DictionaryImpl.tryRehash h d).m_B) == j) := by
  obtain ⟨hB, hW⟩ := tryRehash_grow h d hg
  have hpos : 1 ≤ (if 2 * d.m_B < d.m_maxB then 2 * d.m_B else d.m_maxB) := by
    have := inv.bpos
    split <;> omega
  have hlt : ∀ w ∈ allWords d.m_words,
      h (sortStr w) % (if 2 * d.m_B < d.m_maxB then 2 * d.m_B else d.m_maxB)
        < (List.replicate (if 2 * d.m_B < d.m_maxB then 2 * d.m_B else d.m_maxB)
            (none : Option (List Str))).length := by
    intro w _
    rw [List.length_replicate]
    exact Nat.mod_lt _ hpos
  rw [hB, hW, chainAt_pushAll _ _ _ _ hlt, chainAt_replicate_none, List.nil_append]

theorem tryRehash_inv (h : Str → Nat) (d : DictionaryImpl) (inv : TableInv h d) :
    TableInv h (DictionaryImpl.tryRehash h d) := by
  by_cases hg : d.m_B < d.m_maxB ∧ 10 * d.m_N > 7 * d.m_B
  case neg =>
    unfold DictionaryImpl.tryRehash
    rw [if_neg hg]
    exact inv
  case pos =>
    obtain ⟨hB, hW⟩ := tryRehash_grow h d hg
    have hpos : 1 ≤ (if 2 * d.m_B < d.m_maxB then 2 * d.m_B else d.m_maxB) := by
      have := inv.bpos
      split <;> omega
    have hlt : ∀ w ∈ allWords d.m_words,
        h (sortStr w) % (if 2 * d.m_B < d.m_maxB then 2 * d.m_B else d.m_maxB)
          < (List.replicate (if 2 * d.m_B < d.m_maxB then 2 * d.m_B else d.m_maxB)
              (none : Option (List Str))).length := by
      intro w _
      rw [List.length_replicate]
      exact Nat.mod_lt _ hpos
    constructor
    · rw [hB]
      exact hpos
    · rw [hB, tryRehash_maxB]
      have := hg.1
      split <;> omega
    · rw [hB, hW, length_pushAll, List.length_replicate]
    · intro i w hw
      rw [chainAt_tryRehash h d inv hg i] at hw
      simpa using List.of_mem_filter hw
    · intro i w hw
      rw [chainAt_tryRehash h d inv hg i] at hw
      obtain ⟨j, hj⟩ := mem_allWords.mp (List.mem_of_mem_filter hw)
      exact inv.stored j w hj

theorem tryRehash_filter (h : Str → Nat) (d : DictionaryImpl) (inv : TableInv h d)
    (key : Str) :
    (allWords (DictionaryImpl.tryRehash h d).m_words).filter
        (fun w => sortStr w == key)
      = (allWords d.m_words).filter (fun w => sortStr w == key) := by
  by_cases hg : d.m_B < d.m_maxB ∧ 10 * d.m_N > 7 * d.m_B
  case neg =>
    unfold DictionaryImpl.tryRehash
    rw [if_neg hg]
  case pos =>
    have invNew := tryRehash_inv h d inv
    have hloc : (allWords (DictionaryImpl.tryRehash h d).m_words).filter
        (fun w => sortStr w == key)
      = (chainAt (DictionaryImpl.tryRehash h d).m_words
          (h key % (DictionaryImpl.tryRehash h d).m_B)).filter
          (fun w => sortStr w == key) := by
      apply filter_allWords_localized
      intro i w hw hpw
      have hkey : sortStr w = key := by simpa using hpw
      rw [← invNew.placed i w hw, hkey]
    rw [hloc, chainAt_tryRehash h d inv hg, List.filter_filter]
    apply List.filter_congr
    intro a _
    by_cases ha : sortStr a = key
    · simp [ha]
    · simp [ha]

theorem tryRehash_perm (h : Str → Nat) (d : DictionaryImpl) (inv : TableInv h d) :
    (allWords (DictionaryImpl.tryRehash h d).m_words).Perm (allWords d.m_words) := by
  by_cases hg : d.m_B < d.m_maxB ∧ 10 * d.m_N > 7 * d.m_B
  case neg =>
    unfold DictionaryImpl.tryRehash
    rw [if_neg hg]
  case pos =>
    obtain ⟨hB, hW⟩ := tryRehash_grow h d hg
    have hpos : 1 ≤ (if 2 * d.m_B < d.m_maxB then 2 * d.m_B else d.m_maxB) := by
      have := inv.bpos
      split <;> omega
    have hlt : ∀ w ∈ allWords d.m_words,
        h (sortStr w) % (if 2 * d.m_B < d.m_maxB then 2 * d.m_B else d.m_maxB)
          < (List.replicate (if 2 * d.m_B < d.m_maxB then 2 * d.m_B else d.m_maxB)
              (none : Option (List Str))).length := by
      intro w _
      rw [List.length_replicate]
      exact Nat.mod_lt _ hpos
    rw [hW]
    have := allWords_pushAll_perm _ _ _ hlt
    rwa [allWords_replicate_none, List.append_nil] at this

theorem setN_words (d : DictionaryImpl) (n : Nat) :
    ({ d with m_N := n } : DictionaryImpl).m_words = d.m_words := rfl

theorem insert_N (h : Str → Nat) (d : DictionaryImpl) (word : Str) :
    (DictionaryImpl.insert h d word).m_N = d.m_N + 1 := by
  simp only [DictionaryImpl.insert]
  split
  · rw [tryRehash_N]
  · show (DictionaryImpl.tryRehash h { d with m_N := d.m_N + 1 }).m_N = d.m_N + 1
    rw [tryRehash_N]

theorem insert_maxB (h : Str → Nat) (d : DictionaryImpl) (word : Str) :
    (DictionaryImpl.insert h d word).m_maxB = d.m_maxB := by
  simp only [DictionaryImpl.insert]
  split
  · rw [tryRehash_maxB]
  · show (DictionaryImpl.tryRehash h { d with m_N := d.m_N + 1 }).m_maxB = d.m_maxB
    rw [tryRehash_maxB]

theorem insert_B (h : Str → Nat) (d : DictionaryImpl) (word : Str) :
    (DictionaryImpl.insert h d word).m_B
      = (DictionaryImpl.tryRehash h { d with m_N := d.m_N + 1 }).m_B := by
  simp only [DictionaryImpl.insert]
  split <;> rfl

theorem insert_B_mono (h : Str → Nat) (d : DictionaryImpl) (word : Str) :
    d.m_B ≤ (DictionaryImpl.insert h d word).m_B := by
  rw [insert_B]
  exact tryRehash_B_le h { d with m_N := d.m_N + 1 }

theorem insert_eq_noStore (h : Str → Nat) (d : DictionaryImpl) (word : Str)
    (hw : removeNonLetters word = []) :
    DictionaryImpl.insert h d word
      = DictionaryImpl.tryRehash h { d with m_N := d.m_N + 1 } := by
  simp only [DictionaryImpl.insert]
  rw [if_pos hw]

theorem insert_eq_push (h : Str → Nat) (d : DictionaryImpl) (word : Str)
    (hw : ¬removeNonLetters word = []) :
    DictionaryImpl.insert h d word
      = { DictionaryImpl.tryRehash h { d with m_N := d.m_N + 1 } with
          m_words := bucketPush
            (DictionaryImpl.tryRehash h { d with m_N := d.m_N + 1 }).m_words
            (h (sortStr (removeNonLetters word))
              % (DictionaryImpl.tryRehash h { d with m_N := d.m_N + 1 }).m_B)
            (removeNonLetters word) } := by
  simp only [DictionaryImpl.insert]
  rw [if_neg hw]
  rfl

theorem tableInv_setN (h : Str → Nat) (d : DictionaryImpl) (n : Nat)
    (inv : TableInv h d) : TableInv h { d with m_N := n } :=
  ⟨inv.bpos, inv.bmax, inv.len, inv.placed, inv.stored⟩

theorem insert_inv (h : Str → Nat) (d : DictionaryImpl) (word : Str)
    (inv : TableInv h d) : TableInv h (DictionaryImpl.insert h d word) := by
  have inv1 : TableInv h (DictionaryImpl.tryRehash h { d with m_N := d.m_N + 1 }) :=
    tryRehash_inv h _ (tableInv_setN h d _ inv)
  by_cases hw : removeNonLetters word = []
  · rw [insert_eq_noStore h d word hw]
    exact inv1
  · rw [insert_eq_push h d word hw]
    have ht : h (sortStr (removeNonLetters word))
        % (DictionaryImpl.tryRehash h { d with m_N := d.m_N + 1 }).m_B
        < (DictionaryImpl.tryRehash h { d with m_N := d.m_N + 1 }).m_words.length := by
      rw [inv1.len]
      exact Nat.mod_lt _ inv1.bpos
    refine ⟨inv1.bpos, inv1.bmax, ?_, ?_, ?_⟩
    · show (bucketPush _ _ _).length = _
      rw [length_bucketPush]
      exact inv1.len
    · intro i w hmem
      show h (sortStr w)
          % (DictionaryImpl.tryRehash h { d with m_N := d.m_N + 1 }).m_B = i
      by_cases hi : i = h (sortStr (removeNonLetters word))
          % (DictionaryImpl.tryRehash h { d with m_N := d.m_N + 1 }).m_B
      · subst hi
        have hmem' := hmem
        rw [chainAt_bucketPush_self _ _ _ ht] at hmem'
        rcases List.mem_append.mp hmem' with hold | hnew
        · exact inv1.placed _ w hold
        · rw [List.mem_singleton.mp hnew]
      · have hmem' := hmem
        rw [chainAt_bucketPush_ne _ _ _ _ hi] at hmem'
        exact inv1.placed _ w hmem'
    · intro i w hmem
      by_cases hi : i = h (sortStr (removeNonLetters word))
          % (DictionaryImpl.tryRehash h { d with m_N := d.m_N + 1 }).m_B
      · subst hi
        have hmem' := hmem
        rw [chainAt_bucketPush_self _ _ _ ht] at hmem'
        rcases List.mem_append.mp hmem' with hold | hnew
        · exact inv1.stored _ w hold
        · rw [List.mem_singleton.mp hnew]
          exact ⟨removeNonLetters_idem word, hw⟩
      · have hmem' := hmem
        rw [chainAt_bucketPush_ne _ _ _ _ hi] at hmem'
        exact inv1.stored _ w hmem'

theorem mkDict_inv (h : Str → Nat) (maxBuckets : Nat) (hpos : 1 ≤ maxBuckets) :
    TableInv h (mkDict maxBuckets) := by
  refine ⟨?_, ?_, ?_, ?_, ?_⟩
  · show 1 ≤ (if maxBuckets > 10 then 10 else maxBuckets)
    split <;> omega
  · show (if maxBuckets > 10 then 10 else maxBuckets) ≤ maxBuckets
    split <;> omega
  · show (List.replicate (if maxBuckets > 10 then 10 else maxBuckets)
        (none : Option (List Str))).length = _
    rw [List.length_replicate]
    rfl
  · intro i w hw
    simp only [mkDict] at hw
    rw [chainAt_replicate_none] at hw
    exact absurd hw (List.not_mem_nil w)
  · intro i w hw
    simp only [mkDict] at hw
    rw [chainAt_replicate_none] at hw
    exact absurd hw (List.not_mem_nil w)

theorem reachable_inv (h : Str → Nat) (maxBuckets : Nat) (d : DictionaryImpl)
    (hpos : 1 ≤ maxBuckets) (hr : Reachable h maxBuckets d) : TableInv h d := by
  induction hr with
  | init => exact mkDict_inv h maxBuckets hpos
  | step d w _ ih => exact insert_inv h d w ih

theorem reachable_maxB (h : Str → Nat) (maxBuckets : Nat) (d : DictionaryImpl)
    (hr : Reachable h maxBuckets d) : d.m_maxB = maxBuckets := by
  induction hr with
  | init => rfl
  | step d w _ ih => rw [insert_maxB]; exact ih

theorem insert_perm_noStore (h : Str → Nat) (d : DictionaryImpl) (word : Str)
    (inv : TableInv h d) (hw : removeNonLetters word = []) :
    (allWords (DictionaryImpl.insert h d word).m_words).Perm (allWords d.m_words) := by
  rw [insert_eq_noStore h d word hw]
  have := tryRehash_perm h { d with m_N := d.m_N + 1 } (tableInv_setN h d _ inv)
  rwa [setN_words] at this

theorem insert_visits (h : Str → Nat) (d : DictionaryImpl) (word q : Str)
    (inv : TableInv h d) (hq : ¬removeNonLetters q = []) :
    DictionaryImpl.lookupVisits h (DictionaryImpl.insert h d word) q
      = DictionaryImpl.lookupVisits h d q
        ++ (if canonicalize word = canonicalize q
            then [removeNonLetters word] else []) := by
  have invN : TableInv h ({ d with m_N := d.m_N + 1 }) := tableInv_setN h d _ inv
  have inv1 : TableInv h (DictionaryImpl.tryRehash h { d with m_N := d.m_N + 1 }) :=
    tryRehash_inv h _ invN
  have inv2 : TableInv h (DictionaryImpl.insert h d word) := insert_inv h d word inv
  have hcq : ¬canonicalize q = [] := fun hc => hq (sortStr_eq_nil_iff.mp hc)
  have hdq : DictionaryImpl.lookupVisits h d q
      = (allWords d.m_words).filter (fun w => sortStr w == canonicalize q) := by
    rw [lookupVisits_eq_filter h d q inv, if_neg hq]
  have h1q : (allWords
        (DictionaryImpl.tryRehash h { d with m_N := d.m_N + 1 }).m_words).filter
        (fun w => sortStr w == canonicalize q)
      = (allWords d.m_words).filter (fun w => sortStr w == canonicalize q) := by
    have := tryRehash_filter h { d with m_N := d.m_N + 1 } invN (canonicalize q)
    rwa [setN_words] at this
  rw [lookupVisits_eq_filter h _ q inv2, if_neg hq, hdq]
  by_cases hw : removeNonLetters word = []
  · have hcw : canonicalize word = [] := by
      rw [canonicalize, hw]
      rfl
    rw [if_neg (fun hE => hcq (by rw [← hE]; exact hcw)), List.append_nil,
      insert_eq_noStore h d word hw]
    exact h1q
  · rw [insert_eq_push h d word hw] at inv2 ⊢
    have hplaced : ∀ i w, w ∈ chainAt
        (bucketPush (DictionaryImpl.tryRehash h { d with m_N := d.m_N + 1 }).m_words
          (h (sortStr (removeNonLetters word))
            % (DictionaryImpl.tryRehash h { d with m_N := d.m_N + 1 }).m_B)
          (removeNonLetters word)) i →
        h (sortStr w) % (DictionaryImpl.tryRehash h { d with m_N := d.m_N + 1 }).m_B = i :=
      inv2.placed
  
    have htqlt : h (canonicalize q)
        % (DictionaryImpl.tryRehash h { d with m_N := d.m_N + 1 }).m_B
        < (DictionaryImpl.tryRehash h { d with m_N := d.m_N + 1 }).m_words.length := by
      rw [inv1.len]
      exact Nat.mod_lt _ inv1.bpos
    have hloc2 : (allWords
        (bucketPush (DictionaryImpl.tryRehash h { d with m_N := d.m_N + 1 }).m_words
          (h (sortStr (removeNonLetters word))
            % (DictionaryImpl.tryRehash h { d with m_N := d.m_N + 1 }).m_B)
          (removeNonLetters word))).filter (fun w => sortStr w == canonicalize q)
      = (chainAt
          (bucketPush (DictionaryImpl.tryRehash h { d with m_N := d.m_N + 1 }).m_words
            (h (sortStr (removeNonLetters word))
              % (DictionaryImpl.tryRehash h { d with m_N := d.m_N + 1 }).m_B)
            (removeNonLetters word))
          (h (canonicalize q)
            % (DictionaryImpl.tryRehash h { d with m_N := d.m_N + 1 }).m_B)).filter
          (fun w => sortStr w == canonicalize q) := by
      apply filter_allWords_localized
      intro i w hwmem hpw
      have hkey : sortStr w = canonicalize q := by simpa using hpw
      rw [← hplaced i w hwmem, hkey]
    have hloc1 : (allWords
        (DictionaryImpl.tryRehash h { d with m_N := d.m_N + 1 }).m_words).filter
        (fun w => sortStr w == canonicalize q)
      = (chainAt (DictionaryImpl.tryRehash h { d with m_N := d.m_N + 1 }).m_words
          (h (canonicalize q)
            % (DictionaryImpl.tryRehash h { d with m_N := d.m_N + 1 }).m_B)).filter
          (fun w => sortStr w == canonicalize q) := by
      apply filter_allWords_localized
      intro i w hwmem hpw
      have hkey : sortStr w = canonicalize q := by simpa using hpw
      rw [← inv1.placed i w hwmem, hkey]
    show (allWords
        (bucketPush (DictionaryImpl.tryRehash h { d with m_N := d.m_N + 1 }).m_words
          (h (sortStr (removeNonLetters word))
            % (DictionaryImpl.tryRehash h { d with m_N := d.m_N + 1 }).m_B)
          (removeNonLetters word))).filter (fun w => sortStr w == canonicalize q) = _
    rw [hloc2]
    by_cases hcwq : canonicalize word = canonicalize q
    · have htw : h (sortStr (removeNonLetters word))
          % (DictionaryImpl.tryRehash h { d with m_N := d.m_N + 1 }).m_B
          = h (canonicalize q)
          % (DictionaryImpl.tryRehash h { d with m_N := d.m_N + 1 }).m_B := by
        rw [show sortStr (removeNonLetters word) = canonicalize word from rfl, hcwq]
      rw [if_pos hcwq, htw, chainAt_bucketPush_self _ _ _ htqlt, List.filter_append,
        ← hloc1, h1q]
      congr 1
      have hpw : (sortStr (removeNonLetters word) == canonicalize q) = true := by
        rw [show sortStr (removeNonLetters word) = canonicalize word from rfl, hcwq]
        exact beq_self_eq_true _
      simp [List.filter_singleton, hpw]
    · rw [if_neg hcwq, List.append_nil]
      by_cases htw : h (sortStr (removeNonLetters word))
          % (DictionaryImpl.tryRehash h { d with m_N := d.m_N + 1 }).m_B
          = h (canonicalize q)
          % (DictionaryImpl.tryRehash h { d with m_N := d.m_N + 1 }).m_B
      · rw [htw, chainAt_bucketPush_self _ _ _ htqlt, List.filter_append]
        have hpw : (sortStr (removeNonLetters word) == canonicalize q) = false := by
          rw [show sortStr (removeNonLetters word) = canonicalize word from rfl]
          exact beq_eq_false_iff_ne.mpr hcwq
        have hfil : List.filter (fun w => sortStr w == canonicalize q)
            [removeNonLetters word] = [] := by
          simp [List.filter_singleton, hpw]
        rw [hfil, List.append_nil, ← hloc1, h1q]
      · rw [chainAt_bucketPush_ne _ _ _ _ (fun hE => htw hE.symm), ← hloc1, h1q]

theorem lookupVisits_mkDict (h : Str → Nat) (maxBuckets : Nat) (q : Str) :
    DictionaryImpl.lookupVisits h (mkDict maxBuckets) q = [] := by
  by_cases hq : removeNonLetters q = []
  · simp [DictionaryImpl.lookupVisits, DictionaryImpl.lookup, hq]
  · rw [lookupVisits_eq_chain_filter h _ q hq,
      show (mkDict maxBuckets).m_words
        = List.replicate (if maxBuckets > 10 then 10 else maxBuckets) none from rfl,
      chainAt_replicate_none]
    rfl

theorem lookup_congr_canonical {σ : Type} (h : Str → Nat) (d : DictionaryImpl)
    (q p : Str) (f : σ → Str → σ) (s : σ)
    (hqp : canonicalize q = canonicalize p) :
    DictionaryImpl.lookup h d q (some f) s = DictionaryImpl.lookup h d p (some f) s := by
  by_cases hq : removeNonLetters q = []
  · have hp : removeNonLetters p = [] := by
      apply canonicalize_eq_nil_iff.mp
      rw [← hqp]
      exact canonicalize_eq_nil_iff.mpr hq
    simp [DictionaryImpl.lookup, hq, hp]
  · have hp : ¬removeNonLetters p = [] := by
      intro hp0
      apply hq
      apply canonicalize_eq_nil_iff.mp
      rw [hqp]
      exact canonicalize_eq_nil_iff.mpr hp0
    simp only [DictionaryImpl.lookup, if_neg hq, if_neg hp]
    rw [show sortStr (removeNonLetters q) = sortStr (removeNonLetters p) from hqp]

theorem stored_retrievable (h : Str → Nat) (d : DictionaryImpl) (w q : Str)
    (inv : TableInv h d) (hmem : w ∈ allWords d.m_words)
    (hcan : canonicalize q = sortStr w) :
    w ∈ DictionaryImpl.lookupVisits h d q := by
  have hstored : removeNonLetters w = w ∧ w ≠ [] := by
    obtain ⟨i, hi⟩ := mem_allWords.mp hmem
    exact inv.stored i w hi
  have hq : ¬removeNonLetters q = [] := by
    intro hc
    have hcq : canonicalize q = [] := canonicalize_eq_nil_iff.mpr hc
    rw [hcan] at hcq
    exact hstored.2 (sortStr_eq_nil_iff.mp hcq)
  rw [lookupVisits_eq_filter h d q inv, if_neg hq]
  apply List.mem_filter.mpr
  refine ⟨hmem, ?_⟩
  rw [hcan]
  exact beq_self_eq_true _

theorem mem_allWords_insert (h : Str → Nat) (d : DictionaryImpl) (word w : Str)
    (inv : TableInv h d) (hmem : w ∈ allWords d.m_words) :
    w ∈ allWords (DictionaryImpl.insert h d word).m_words := by
  have invN := tableInv_setN h d (d.m_N + 1) inv
  have hperm1 := tryRehash_perm h { d with m_N := d.m_N + 1 } invN
  rw [setN_words] at hperm1
  have hmem1 : w ∈ allWords
      (DictionaryImpl.tryRehash h { d with m_N := d.m_N + 1 }).m_words :=
    hperm1.mem_iff.mpr hmem
  by_cases hw0 : removeNonLetters word = []
  · rw [insert_eq_noStore h d word hw0]
    exact hmem1
  · rw [insert_eq_push h d word hw0]
    have inv1 := tryRehash_inv h _ invN
    have hlt : h (sortStr (removeNonLetters word))
        % (DictionaryImpl.tryRehash h { d with m_N := d.m_N + 1 }).m_B
        < (DictionaryImpl.tryRehash h { d with m_N := d.m_N + 1 }).m_words.length := by
      rw [inv1.len]
      exact Nat.mod_lt _ inv1.bpos
    show w ∈ allWords
      (bucketPush (DictionaryImpl.tryRehash h { d with m_N := d.m_N + 1 }).m_words
        (h (sortStr (removeNonLetters word))
          % (DictionaryImpl.tryRehash h { d with m_N := d.m_N + 1 }).m_B)
        (removeNonLetters word))
    exact (allWords_bucketPush_perm _ _ (removeNonLetters word) hlt).mem_iff.mpr
      (List.mem_cons_of_mem _ hmem1)

/-- C1, counterexample to the claim as stated: insert stores the word only
after `removeNonLetters` has stripped and lowercased it in place, so with
w1 = "Dog!" and w2 = "god" (equal non-empty canonical keys "dgo"), the
lookup callback receives "dog", never the original "Dog!". -/
theorem C1_counterexample :
    canonicalize (strToCodes "Dog!") = canonicalize (strToCodes "god")
    ∧ ¬canonicalize (strToCodes "Dog!") = []
    ∧ ¬strToCodes "Dog!" ∈ DictionaryImpl.lookupVisits (fun _ => 0)
        (DictionaryImpl.insert (fun _ => 0) (mkDict 10) (strToCodes "Dog!"))
        (strToCodes "god")
    ∧ DictionaryImpl.lookupVisits (fun _ => 0)
        (DictionaryImpl.insert (fun _ => 0) (mkDict 10) (strToCodes "Dog!"))
        (strToCodes "god") = [strToCodes "dog"] := by
  decide

/-- C1 (amended): for any hash function and any well-formed table, if w1 and
w2 have equal non-empty canonical keys then after insert(w1), lookup(w2)
invokes the callback with `removeNonLetters w1` — the lowercased letters-only
form of w1, which is w1 itself whenever w1 consists of lowercase letters
only.  The statement is symmetric in w1 and w2 by instantiation. -/
theorem C1_anagram_lookup (h : Str → Nat) (d : DictionaryImpl) (w1 w2 : Str)
    (inv : TableInv h d)
    (hcan : canonicalize w1 = canonicalize w2) (hne : ¬canonicalize w1 = []) :
    removeNonLetters w1 ∈ DictionaryImpl.lookupVisits h
      (DictionaryImpl.insert h d w1) w2 := by
  have hq2 : ¬removeNonLetters w2 = [] := by
    intro hc
    apply hne
    rw [hcan]
    exact canonicalize_eq_nil_iff.mpr hc
  rw [insert_visits h d w1 w2 inv hq2, if_pos hcan]
  exact List.mem_append.mpr (Or.inr (List.mem_singleton.mpr rfl))

/-- C1 witness: the amended theorem at a concrete input. -/
theorem C1_witness :
    strToCodes "listen" ∈ DictionaryImpl.lookupVisits (fun _ => 0)
      (DictionaryImpl.insert (fun _ => 0) (mkDict 10) (strToCodes "listen"))
      (strToCodes "silent") := by
  have hmem := C1_anagram_lookup (fun _ => 0) (mkDict 10) (strToCodes "listen")
    (strToCodes "silent") (mkDict_inv (fun _ => 0) 10 (by decide)) (by decide)
    (by decide)
  have hrw : removeNonLetters (strToCodes "listen") = strToCodes "listen" := by
    decide
  rwa [hrw] at hmem

/-- C2: at every reachable table state the bucket count is bounded by
maxBuckets, never decreases across an insert, every stored word lies in the
bucket its canonical key hashes to at the current bucket count, and every
stored word remains retrievable by any query with its canonical key;
moreover growth is lossless: every word stored before any further insert
(in particular one that triggers a growth event) is still stored and still
retrievable via its anagram query after that insert. -/
theorem C2_growth_invariants (h : Str → Nat) (maxBuckets : Nat)
    (d : DictionaryImpl) (hpos : 1 ≤ maxBuckets) (hr : Reachable h maxBuckets d) :
    d.m_B ≤ maxBuckets
    ∧ (∀ w, d.m_B ≤ (DictionaryImpl.insert h d w).m_B)
    ∧ (∀ i w, w ∈ chainAt d.m_words i → h (canonicalize w) % d.m_B = i)
    ∧ (∀ w q, w ∈ allWords d.m_words → canonicalize q = sortStr w →
        w ∈ DictionaryImpl.lookupVisits h d q)
    ∧ (∀ word w, w ∈ allWords d.m_words →
        w ∈ allWords (DictionaryImpl.insert h d word).m_words)
    ∧ (∀ word w q, w ∈ allWords d.m_words → canonicalize q = sortStr w →
        w ∈ DictionaryImpl.lookupVisits h (DictionaryImpl.insert h d word) q) := by
  have inv := reachable_inv h maxBuckets d hpos hr
  have hmax := reachable_maxB h maxBuckets d hr
  refine ⟨hmax ▸ inv.bmax, fun w => insert_B_mono h d w, ?_, ?_, ?_, ?_⟩
  · intro i w hw
    have hfix := (inv.stored i w hw).1
    rw [canonicalize, hfix]
    exact inv.placed i w hw
  · intro w q hmem hcan
    exact stored_retrievable h d w q inv hmem hcan
  · intro word w hmem
    exact mem_allWords_insert h d word w inv hmem
  · intro word w q hmem hcan
    exact stored_retrievable h (DictionaryImpl.insert h d word) w q
      (insert_inv h d word inv) (mem_allWords_insert h d word w inv hmem) hcan

/-- C2 witness: the invariants applied at the concrete reachable state
`dictSeven`, whose next insert triggers a real growth event from 10 to 20
buckets; the word "dog" stored before that growth is still stored and still
found by lookup("god") afterwards. -/
theorem C2_witness :
    dictSeven.m_B = 10
    ∧ (DictionaryImpl.insert (fun _ => 0) dictSeven (strToCodes "gold")).m_B = 20
    ∧ strToCodes "dog" ∈ allWords dictSeven.m_words
    ∧ strToCodes "dog" ∈ allWords
        (DictionaryImpl.insert (fun _ => 0) dictSeven (strToCodes "gold")).m_words
    ∧ strToCodes "dog" ∈ DictionaryImpl.lookupVisits (fun _ => 0)
        (DictionaryImpl.insert (fun _ => 0) dictSeven (strToCodes "gold"))
        (strToCodes "god") := by
  have hreach : Reachable (fun _ => 0) 100 dictSeven :=
    Reachable.step _ _ (Reachable.step _ _ (Reachable.step _ _ (Reachable.step _ _
      (Reachable.step _ _ (Reachable.step _ _ (Reachable.step _ _ Reachable.init))))))
  have hC2 := C2_growth_invariants (fun _ => 0) 100 dictSeven (by decide) hreach
  refine ⟨by decide, by decide, by decide, ?_, ?_⟩
  · exact hC2.2.2.2.2.1 (strToCodes "gold") (strToCodes "dog") (by decide)
  · exact hC2.2.2.2.2.2 (strToCodes "gold") (strToCodes "dog") (strToCodes "god")
      (by decide) (by decide)

/-- C3: on every insert, after the item count is bumped and before storage,
the table grows exactly when bucketCount < maxBuckets and the load factor
exceeds 0.7 (with the incremented count), the new bucket count being
min(2 * bucketCount, maxBuckets); otherwise the bucket count is unchanged. -/
theorem C3_growth_policy (h : Str → Nat) (d : DictionaryImpl) (w : Str) :
    (DictionaryImpl.insert h d w).m_B
      = if d.m_B < d.m_maxB ∧ 10 * (d.m_N + 1) > 7 * d.m_B
        then min (2 * d.m_B) d.m_maxB
        else d.m_B := by
  rw [insert_B, tryRehash_B]
  show (if d.m_B < d.m_maxB ∧ 10 * (d.m_N + 1) > 7 * d.m_B
      then (if 2 * d.m_B < d.m_maxB then 2 * d.m_B else d.m_maxB)
      else d.m_B) = _
  split
  · rw [Nat.min_def]
    split <;> split <;> omega
  · rfl

/-- C4: at any reachable state, lookup invokes the callback only for stored
words whose canonical key equals the canonical key of the query; and
concretely, for every hash function, after insert("Dog!") (canonical "dgo"),
lookup("g0d") (canonical "dg") invokes the callback for no word. -/
theorem C4_exact_match_only (h : Str → Nat) (maxBuckets : Nat)
    (d : DictionaryImpl) (hpos : 1 ≤ maxBuckets) (hr : Reachable h maxBuckets d)
    (q : Str) :
    (∀ w, w ∈ DictionaryImpl.lookupVisits h d q →
        w ∈ allWords d.m_words ∧ canonicalize w = canonicalize q)
    ∧ ∀ g : Str → Nat,
        DictionaryImpl.lookupVisits g
          (DictionaryImpl.insert g (mkDict 10) (strToCodes "Dog!"))
          (strToCodes "g0d") = [] := by
  have inv := reachable_inv h maxBuckets d hpos hr
  constructor
  · intro w hw
    by_cases hq : removeNonLetters q = []
    · rw [lookupVisits_eq_filter h d q inv, if_pos hq] at hw
      exact absurd hw (List.not_mem_nil w)
    · rw [lookupVisits_eq_filter h d q inv, if_neg hq] at hw
      have hmemall := List.mem_of_mem_filter hw
      have hkey : sortStr w = canonicalize q := by
        simpa using List.of_mem_filter hw
      refine ⟨hmemall, ?_⟩
      obtain ⟨i, hi⟩ := mem_allWords.mp hmemall
      rw [canonicalize, (inv.stored i w hi).1, hkey]
  · intro g
    rw [insert_visits g (mkDict 10) (strToCodes "Dog!") (strToCodes "g0d")
      (mkDict_inv g 10 (by decide)) (by decide),
      lookupVisits_mkDict, if_neg (by decide :
        ¬canonicalize (strToCodes "Dog!") = canonicalize (strToCodes "g0d"))]
    rfl

/-- C4 witness: the theorem at a concrete reachable state and query. -/
theorem C4_witness :
    DictionaryImpl.lookupVisits (fun _ => 0)
      (DictionaryImpl.insert (fun _ => 0) (mkDict 10) (strToCodes "Dog!"))
      (strToCodes "g0d") = [] :=
  (C4_exact_match_only (fun _ => 0) 10
    (DictionaryImpl.insert (fun _ => 0) (mkDict 10) (strToCodes "Dog!"))
    (by decide) (Reachable.step _ _ Reachable.init) (strToCodes "g0d")).2
    (fun _ => 0)

/-- C5: inserting a word with empty canonical form stores nothing (the
multiset of stored words is unchanged), such a word is never passed to any
lookup callback at any reachable state, and a query with empty canonical
form produces no callback invocations; both operations are total. -/
theorem C5_empty_canonical (h : Str → Nat) (maxBuckets : Nat)
    (d : DictionaryImpl) (hpos : 1 ≤ maxBuckets) (hr : Reachable h maxBuckets d)
    (w q : Str) :
    (removeNonLetters w = [] →
        (allWords (DictionaryImpl.insert h d w).m_words).Perm
          (allWords d.m_words))
    ∧ (removeNonLetters w = [] →
        ¬w ∈ DictionaryImpl.lookupVisits h d q)
    ∧ (canonicalize q = [] → DictionaryImpl.lookupVisits h d q = []) := by
  have inv := reachable_inv h maxBuckets d hpos hr
  refine ⟨fun hw => insert_perm_noStore h d w inv hw, ?_, ?_⟩
  · intro hw hmem
    by_cases hq : removeNonLetters q = []
    · rw [lookupVisits_eq_filter h d q inv, if_pos hq] at hmem
      exact absurd hmem (List.not_mem_nil w)
    · rw [lookupVisits_eq_filter h d q inv, if_neg hq] at hmem
      obtain ⟨i, hi⟩ := mem_allWords.mp (List.mem_of_mem_filter hmem)
      have hst := inv.stored i w hi
      exact hst.2 (by rw [← hst.1, hw])
  · intro hq
    rw [lookupVisits_eq_filter h d q inv, if_pos (canonicalize_eq_nil_iff.mp hq)]

/-- C5 witness: the theorem at concrete inputs with empty canonical forms. -/
theorem C5_witness :
    (allWords (DictionaryImpl.insert (fun _ => 0) (mkDict 10)
        (strToCodes "123")).m_words).Perm (allWords (mkDict 10).m_words)
    ∧ ¬strToCodes "123" ∈ DictionaryImpl.lookupVisits (fun _ => 0) (mkDict 10)
        (strToCodes "abc")
    ∧ DictionaryImpl.lookupVisits (fun _ => 0) (mkDict 10) (strToCodes "   ") = [] := by
  have hC5 := C5_empty_canonical (fun _ => 0) 10 (mkDict 10) (by decide)
    Reachable.init (strToCodes "123") (strToCodes "abc")
  have hC5b := C5_empty_canonical (fun _ => 0) 10 (mkDict 10) (by decide)
    Reachable.init (strToCodes "123") (strToCodes "   ")
  exact ⟨hC5.1 (by decide), hC5.2.1 (by decide), hC5b.2.2 (by decide)⟩

/-- C6: every insert increments the item count by exactly one, the growth
decision is taken with the incremented count before the word is stored, and
a letterless insert still counts and can still trigger growth: from the
state with 100 max buckets, 10 buckets and 7 items, inserting "123" grows
the table to 20 buckets while storing nothing. -/
theorem C6_itemCount (h : Str → Nat) (d : DictionaryImpl) (w : Str) :
    (DictionaryImpl.insert h d w).m_N = d.m_N + 1
    ∧ (DictionaryImpl.insert h d w).m_B
        = (DictionaryImpl.tryRehash h { d with m_N := d.m_N + 1 }).m_B
    ∧ (DictionaryImpl.insert h
        { m_maxB := 100, m_B := 10, m_N := 7, m_words := List.replicate 10 none }
        (strToCodes "123")).m_B = 20
    ∧ (DictionaryImpl.insert h
        { m_maxB := 100, m_B := 10, m_N := 7, m_words := List.replicate 10 none }
        (strToCodes "123")).m_words = List.replicate 20 none :=
  ⟨insert_N h d w, insert_B h d w, rfl, rfl⟩

/-- C7: three mutual anagrams inserted in order [a, b, c] (with no growth
across the three inserts) are visited in that order, appended after any
earlier matches; and concretely, for every hash function, with maxBuckets 10
after inserting "listen", "enlist", "banana", "inlets", lookup("silent")
visits exactly "listen", "enlist", "inlets" in that order and never
"banana". -/
theorem C7_order (h : Str → Nat) (d : DictionaryImpl) (a b c q : Str)
    (inv : TableInv h d)
    (hab : canonicalize a = canonicalize b)
    (hbc : canonicalize b = canonicalize c)
    (hqa : canonicalize q = canonicalize a)
    (hne : ¬canonicalize a = [])
    (_hnogrow : (DictionaryImpl.insert h (DictionaryImpl.insert h
        (DictionaryImpl.insert h d a) b) c).m_B = d.m_B) :
    DictionaryImpl.lookupVisits h (DictionaryImpl.insert h (DictionaryImpl.insert h
        (DictionaryImpl.insert h d a) b) c) q
      = DictionaryImpl.lookupVisits h d q
        ++ [removeNonLetters a, removeNonLetters b, removeNonLetters c]
    ∧ ∀ g : Str → Nat,
        DictionaryImpl.lookupVisits g
          (DictionaryImpl.insert g (DictionaryImpl.insert g (DictionaryImpl.insert g
            (DictionaryImpl.insert g (mkDict 10) (strToCodes "listen"))
            (strToCodes "enlist")) (strToCodes "banana")) (strToCodes "inlets"))
          (strToCodes "silent")
        = [strToCodes "listen", strToCodes "enlist", strToCodes "inlets"] := by
  constructor
  · have hq : ¬removeNonLetters q = [] := by
      intro hc
      apply hne
      rw [← hqa]
      exact canonicalize_eq_nil_iff.mpr hc
    have inv1 : TableInv h (DictionaryImpl.insert h d a) := insert_inv h d a inv
    have inv2 : TableInv h (DictionaryImpl.insert h (DictionaryImpl.insert h d a) b) :=
      insert_inv h _ b inv1
    rw [insert_visits h _ c q inv2 hq, insert_visits h _ b q inv1 hq,
      insert_visits h d a q inv hq,
      if_pos hqa.symm, if_pos (hab ▸ hqa.symm : canonicalize b = canonicalize q),
      if_pos (hbc ▸ hab ▸ hqa.symm : canonicalize c = canonicalize q)]
    simp [List.append_assoc]
  · intro g
    have i0 : TableInv g (mkDict 10) := mkDict_inv g 10 (by decide)
    have i1 := insert_inv g (mkDict 10) (strToCodes "listen") i0
    have i2 := insert_inv g _ (strToCodes "enlist") i1
    have i3 := insert_inv g _ (strToCodes "banana") i2
    rw [insert_visits g _ (strToCodes "inlets") (strToCodes "silent") i3 (by decide),
      insert_visits g _ (strToCodes "banana") (strToCodes "silent") i2 (by decide),
      insert_visits g _ (strToCodes "enlist") (strToCodes "silent") i1 (by decide),
      insert_visits g _ (strToCodes "listen") (strToCodes "silent") i0 (by decide),
      lookupVisits_mkDict]
    rw [if_pos (by decide : canonicalize (strToCodes "listen")
        = canonicalize (strToCodes "silent")),
      if_pos (by decide : canonicalize (strToCodes "enlist")
        = canonicalize (strToCodes "silent")),
      if_neg (by decide : ¬canonicalize (strToCodes "banana")
        = canonicalize (strToCodes "silent")),
      if_pos (by decide : canonicalize (strToCodes "inlets")
        = canonicalize (strToCodes "silent"))]
    decide

/-- C7 witness: the general order statement at a concrete instance. -/
theorem C7_witness :
    DictionaryImpl.lookupVisits (fun _ => 0)
      (DictionaryImpl.insert (fun _ => 0) (DictionaryImpl.insert (fun _ => 0)
        (DictionaryImpl.insert (fun _ => 0) (mkDict 10) (strToCodes "listen"))
        (strToCodes "enlist")) (strToCodes "inlets")) (strToCodes "silent")
      = DictionaryImpl.lookupVisits (fun _ => 0) (mkDict 10) (strToCodes "silent")
        ++ [removeNonLetters (strToCodes "listen"),
            removeNonLetters (strToCodes "enlist"),
            removeNonLetters (strToCodes "inlets")] :=
  (C7_order (fun _ => 0) (mkDict 10) (strToCodes "listen") (strToCodes "enlist")
    (strToCodes "inlets") (strToCodes "silent")
    (mkDict_inv (fun _ => 0) 10 (by decide)) (by decide) (by decide) (by decide)
    (by decide) (by decide)).1

/-- C8: two queries with the same canonical key produce exactly the same
sequence of callback invocations, for any table state and callback. -/
theorem C8_permutation_query {σ : Type} (h : Str → Nat) (d : DictionaryImpl)
    (q p : Str) (callback : Option (σ → Str → σ)) (s : σ)
    (hqp : canonicalize q = canonicalize p) :
    DictionaryImpl.lookupVisits h d q = DictionaryImpl.lookupVisits h d p
    ∧ DictionaryImpl.lookup h d q callback s
        = DictionaryImpl.lookup h d p callback s := by
  constructor
  · unfold DictionaryImpl.lookupVisits
    rw [lookup_congr_canonical h d q p _ _ hqp]
  · cases callback with
    | none => rfl
    | some f => exact lookup_congr_canonical h d q p f s hqp

/-- C8 witness: the theorem at the concrete pair "stop" and "pots". -/
theorem C8_witness :
    DictionaryImpl.lookupVisits (fun _ => 0)
        (DictionaryImpl.insert (fun _ => 0) (mkDict 10) (strToCodes "opts"))
        (strToCodes "stop")
      = DictionaryImpl.lookupVisits (fun _ => 0)
        (DictionaryImpl.insert (fun _ => 0) (mkDict 10) (strToCodes "opts"))
        (strToCodes "pots")
    ∧ DictionaryImpl.lookup (fun _ => 0)
        (DictionaryImpl.insert (fun _ => 0) (mkDict 10) (strToCodes "opts"))
        (strToCodes "stop") (some (fun (acc : List Str) w => acc ++ [w])) []
      = DictionaryImpl.lookup (fun _ => 0)
        (DictionaryImpl.insert (fun _ => 0) (mkDict 10) (strToCodes "opts"))
        (strToCodes "pots") (some (fun (acc : List Str) w => acc ++ [w])) [] :=
  C8_permutation_query (fun _ => 0)
    (DictionaryImpl.insert (fun _ => 0) (mkDict 10) (strToCodes "opts"))
    (strToCodes "stop") (strToCodes "pots")
    (some (fun (acc : List Str) w => acc ++ [w])) [] (by decide)

/-- C9: lookup with a null callback returns immediately: the table and the
callback state are untouched and no invocation happens, for every table
state and query; the operation is total, so it cannot fail. -/
theorem C9_null_callback {σ : Type} (h : Str → Nat) (d : DictionaryImpl)
    (letters : Str) (s : σ) :
    DictionaryImpl.lookup h d letters (none : Option (σ → Str → σ)) s = (d, s) :=
  rfl

/-- C10: lookup never mutates the table: the bucket count, the maximum
bucket count, the item count and the whole bucket array (hence the contents
and order of every chain) returned by lookup are those it was given. -/
theorem C10_lookup_frame {σ : Type} (h : Str → Nat) (d : DictionaryImpl)
    (letters : Str) (callback : Option (σ → Str → σ)) (s : σ) :
    (DictionaryImpl.lookup h d letters callback s).1.m_B = d.m_B
    ∧ (DictionaryImpl.lookup h d letters callback s).1.m_maxB = d.m_maxB
    ∧ (DictionaryImpl.lookup h d letters callback s).1.m_N = d.m_N
    ∧ (DictionaryImpl.lookup h d letters callback s).1.m_words = d.m_words := by
  have hfst : (DictionaryImpl.lookup h d letters callback s).1 = d := by
    unfold DictionaryImpl.lookup
    cases callback with
    | none => rfl
    | some f =>
      by_cases hl : removeNonLetters letters = []
      · simp [hl]
      · simp only [if_neg hl]
        cases bucketGet d.m_words
            (DictionaryImpl.hash h d (sortStr (removeNonLetters letters))) <;> rfl
  rw [hfst]
  exact ⟨rfl, rfl, rfl, rfl⟩
